import Mathlib

/-!
A verification development for the havarotjs syllable engine: a shallow
embedding of the data model and the operations of `syllable.ts`,
`syllablePart.ts`, `text.ts` and `utils/holemWaw.ts`, together with theorems
checking the documented behaviour.  JavaScript strings are modelled as
`List Char`; fallible or possibly non-terminating code is modelled with
`Option`/`Except`.
-/

set_option maxHeartbeats 1000000

namespace Havarot

/-! ## Characters and clusters -/

/-- A character as produced by the sequencer: its text (a list of Unicode
scalars, normally a single one) and its sequence class `sequencePosition`:
0 = base consonant, 1 = dagesh/mapiq, 2 = consonant ligature mark,
3 = vowel point including sheva, 4+ = cantillation mark or other.
The classification table itself lives in `char.ts`, which is not among the
sources, so the class is carried as data alongside the text. -/
structure HChar where
  text : List Char
  sequencePosition : Nat
deriving DecidableEq

/-- An orthographic cluster: its characters plus the derived flags computed
by `cluster.ts` (not among the sources), carried as data since the syllable
code only reads them. -/
structure Cluster where
  chars : List HChar
  isShureq : Bool := false
  isMater : Bool := false
  isPunctuation : Bool := false
  isNotHebrew : Bool := false
  hasVowel : Bool := false
deriving DecidableEq

/-- `Cluster.text`: the concatenation of the texts of its characters. -/
def Cluster.text (c : Cluster) : List Char := (c.chars.map HChar.text).flatten

/-- A syllable: its clusters and the three flags assigned by the
syllabification algorithm (`syllable.ts`, constructor). -/
structure Syllable where
  clusters : List Cluster
  isClosed : Bool := false
  isAccented : Bool := false
  isFinal : Bool := false
deriving DecidableEq

/-- `Syllable.text` (syllable.ts:79-81): fold of `+ cluster.text` over the
clusters starting from the empty string. -/
def Syllable.text (s : Syllable) : List Char :=
  s.clusters.foldl (fun init c => init ++ c.text) []

/-! ## Character constants (Unicode code points named as in the source) -/

def shevaCh : Char := 'ְ'
def patahCh : Char := 'ַ'
def qametsCh : Char := 'ָ'
def holemCh : Char := 'ֹ'
def holemHaserCh : Char := 'ֺ'
def dageshCh : Char := 'ּ'
def maqqefCh : Char := '־'
def qametsQatanCh : Char := 'ׇ'
def heCh : Char := 'ה'
def vavCh : Char := 'ו'
def hetCh : Char := 'ח'
def ayinCh : Char := 'ע'

/-- The `hebChars` test (utils/regularExpressions, not among the sources):
whether a scalar lies in the Unicode Hebrew block, per the spec's notion of
"any other Hebrew character". -/
def isHebrewCh (c : Char) : Bool := 0x0590 ≤ c.toNat && c.toNat ≤ 0x05FF

/-- `/\u{05D7}|\u{05E2}/u.test(t)`: the text contains a het or an ayin. -/
def hetAyinTest (t : List Char) : Bool := t.any (fun c => c = hetCh || c = ayinCh)

/-- `t.indexOf(c) !== -1` for a single character. -/
def containsCh (t : List Char) (c : Char) : Bool := t.any (fun d => d = c)

/-- `sub` is a prefix of `l` (boolean). -/
def beginsWith : List Char → List Char → Bool
  | [], _ => true
  | _ :: _, [] => false
  | a :: as, b :: bs => a = b && beginsWith as bs

/-- `l.indexOf(sub) !== -1`: `sub` occurs contiguously inside `l`. -/
def containsSeq (sub : List Char) : List Char → Bool
  | [] => sub.isEmpty
  | c :: rest => beginsWith sub (c :: rest) || containsSeq sub rest

/-! ## Syllable parts (`syllablePart.ts`) -/

/-- `ConsonantType` from syllablePart.ts:84-88. -/
inductive ConsonantType
  | onsetConsonant
  | codaConsonant
  | codaGeminatedConsonant
deriving DecidableEq

/-- The closed sum of `SyllablePart` subclasses, each holding its
characters, with `Consonant` also carrying its `ConsonantType`. -/
inductive SPart
  | consonant (chars : List HChar) (ctype : ConsonantType)
  | vowel (chars : List HChar)
  | hebrewMark (chars : List HChar)
  | nonHebrew (chars : List HChar)
deriving DecidableEq

def SPart.chars : SPart → List HChar
  | .consonant cs _ => cs
  | .vowel cs => cs
  | .hebrewMark cs => cs
  | .nonHebrew cs => cs

/-- `SyllablePart.text`: concatenation of the texts of its characters. -/
def SPart.text (p : SPart) : List Char := (p.chars.map HChar.text).flatten

def SPart.isConsonant : SPart → Bool
  | .consonant _ _ => true
  | _ => false

def SPart.isVowel : SPart → Bool
  | .vowel _ => true
  | _ => false

/-! ## The `parts` walk (syllable.ts:306-429)

The walk is modelled with `Option`: `none` stands for non-termination of
the original loop (see `charStep`). -/

/-- One step of the per-character loop at syllable.ts:354-395, acting on the
pair (parts, seenVowel).  For a sequence-class 1-2 character, the inner loop
`for (let j = parts.length - 1; j >= 0; j++)` starts at the last index and
then, because of `j++`, only moves past the end of the array, so it can
extend a `Consonant` only when the last part is one; when the array is
nonempty but its last element is not a `Consonant` the loop never exits,
which is modelled as `none`. -/
def charStep (i : Nat) (st : List SPart × Bool) (ch : HChar) : Option (List SPart × Bool) :=
  let parts := st.1
  let seenVowel := st.2
  if ch.sequencePosition = 0 then
    let cType := if seenVowel then ConsonantType.codaConsonant else ConsonantType.onsetConsonant
    some (parts ++ [SPart.consonant [ch] cType], seenVowel)
  else if ch.sequencePosition = 1 ∨ ch.sequencePosition = 2 then
    match parts.getLast? with
    | none => some (parts ++ [SPart.hebrewMark [ch]], seenVowel)
    | some (SPart.consonant cs _) =>
      let cType := if seenVowel then ConsonantType.codaConsonant else ConsonantType.onsetConsonant
      some (parts.dropLast ++ [SPart.consonant (cs ++ [ch]) cType], seenVowel)
    | some _ => none
  else if ch.sequencePosition = 3 then
    if ch.text = [shevaCh] ∧ 0 < i then
      some (parts ++ [SPart.hebrewMark [ch]], seenVowel)
    else
      some (parts ++ [SPart.vowel [ch]], true)
  else if ch.text.any isHebrewCh then
    some (parts ++ [SPart.hebrewMark [ch]], seenVowel)
  else
    some (parts ++ [SPart.nonHebrew [ch]], seenVowel)

/-- The per-character loop over the remaining characters of the cluster. -/
def charLoop (i : Nat) (st : List SPart × Bool) : List HChar → Option (List SPart × Bool)
  | [] => some st
  | ch :: rest =>
    match charStep i st ch with
    | none => none
    | some st2 => charLoop i st2 rest

/-- The mater loop at syllable.ts:322-329: walk `parts` from the end looking
for a `Vowel`; extend the last `Vowel` with the supplied characters.
Returns `none` when no `Vowel` exists (in which case the source leaves
`parts` and `chars` unchanged). -/
def mergeMater : List SPart → List HChar → Option (List SPart)
  | [], _ => none
  | p :: rest, c =>
    match mergeMater rest c with
    | some r => some (p :: r)
    | none =>
      match p with
      | SPart.vowel vs => some (SPart.vowel (vs ++ c) :: rest)
      | _ => none

/-- Shureq handling (syllable.ts:314-319): a shureq cluster emits a `Vowel`
from its first two characters.  State is (parts, seenVowel, chars). -/
def shureqPhase (cl : Cluster) (st : List SPart × Bool) : List SPart × Bool × List HChar :=
  if cl.isShureq then (st.1 ++ [SPart.vowel (cl.chars.take 2)], true, cl.chars.drop 2)
  else (st.1, st.2, cl.chars)

/-- Mater handling (syllable.ts:320-330). -/
def materPhase (cl : Cluster) (x : List SPart × Bool × List HChar) : List SPart × Bool × List HChar :=
  if cl.isMater then
    match mergeMater x.1 (x.2.2.take 1) with
    | some r => (r, true, x.2.2.drop 1)
    | none => x
  else x

/-- The first furtive-patah case (syllable.ts:336-341): a het or ayin
followed by a patah emits the patah as a Vowel, then the letter as a coda
Consonant. -/
def furtiveHetAyin (x : List SPart × Bool × List HChar) : List SPart × Bool × List HChar :=
  match x.2.2 with
  | c0 :: c1 :: rest =>
    if hetAyinTest c0.text = true ∧ c1.text = [patahCh] then
      (x.1 ++ [SPart.vowel [c1], SPart.consonant [c0] ConsonantType.codaConsonant],
       true, rest)
    else x
  | _ => x

/-- The second furtive-patah case (syllable.ts:342-352): he + dagesh
followed by a patah emits the patah as a Vowel, then the he with its dagesh
as a coda Consonant. -/
def furtiveHeDagesh (x : List SPart × Bool × List HChar) : List SPart × Bool × List HChar :=
  match x.2.2 with
  | c0 :: c1 :: c2 :: rest =>
    if c0.text = [heCh] ∧ c1.text = [dageshCh] ∧ c2.text = [patahCh] then
      (x.1 ++ [SPart.vowel [c2], SPart.consonant [c0, c1] ConsonantType.codaConsonant],
       true, rest)
    else x
  | _ => x

/-- Furtive-patah handling (syllable.ts:331-353), gated on `doF` =
"this syllable is final and every remaining cluster is non-Hebrew or
punctuation". -/
def furtivePhase (doF : Bool) (x : List SPart × Bool × List HChar) :
    List SPart × Bool × List HChar :=
  if doF then furtiveHeDagesh (furtiveHetAyin x) else x

/-- Run the per-character loop on the state left by the cluster phases. -/
def runChars (i : Nat) (x : List SPart × Bool × List HChar) : Option (List SPart × Bool) :=
  charLoop i (x.1, x.2.1) x.2.2

/-- Processing of one cluster (the body of the `for` loop at
syllable.ts:312-396).  `rest` is the list of clusters after this one in the
same syllable (`this.clusters.slice(i + 1)`). -/
def clusterStep (isFinal : Bool) (i : Nat) (cl : Cluster) (rest : List Cluster)
    (st : List SPart × Bool) : Option (List SPart × Bool) :=
  runChars i (furtivePhase
    (isFinal && rest.all (fun c => c.isNotHebrew || c.isPunctuation))
    (materPhase cl (shureqPhase cl st)))

/-- The main walk over all clusters of the syllable, keeping the running
index `i` (needed for the sheva test `i > 0`) and passing each cluster the
list of clusters after it. -/
def walkClusters (isFinal : Bool) : Nat → List Cluster → List SPart × Bool →
    Option (List SPart × Bool)
  | _, [], st => some st
  | i, cl :: rest, st =>
    match clusterStep isFinal i cl rest st with
    | none => none
    | some st2 => walkClusters isFinal (i + 1) rest st2

/-- One step of the flag computation at syllable.ts:399-407 over the pair
(hasNonShevaVowel, hasConsonantAfterVowel). -/
def gemStep (fl : Bool × Bool) (p : SPart) : Bool × Bool :=
  if p.isVowel && !(containsCh p.text shevaCh) then (true, fl.2)
  else if fl.1 && p.isConsonant then (fl.1, true)
  else fl

/-- The pair (hasNonShevaVowel, hasConsonantAfterVowel) computed over the
walked parts. -/
def gemFlags (ps : List SPart) : Bool × Bool := ps.foldl gemStep (false, false)

/-- The extra `Consonant` appended by the gemination rule
(syllable.ts:422-423): the characters of sequence class at most 2 of the
following syllable's first cluster, with role `codaGeminatedConsonant`. -/
def gemPart (c0 : Cluster) : SPart :=
  SPart.consonant (c0.chars.filter (fun c => c.sequencePosition ≤ 2))
    ConsonantType.codaGeminatedConsonant

/-- The `parts` accessor (syllable.ts:306-429) for a syllable whose `next`
link (scoped to its word) is the supplied syllable, if any.  `none` models
non-termination of the original code (see `charStep`). -/
def partsOf (s : Syllable) (next : Option Syllable) : Option (List SPart) :=
  match walkClusters s.isFinal 0 s.clusters ([], false) with
  | none => none
  | some (ps, _) =>
    let fl := gemFlags ps
    match next with
    | some ns =>
      match ns.clusters with
      | c0 :: _ =>
        if !s.isFinal && fl.1 && !fl.2 && containsCh c0.text dageshCh && !c0.isShureq then
          some (ps ++ [gemPart c0])
        else some ps
      | [] => some ps
    | none => some ps

/-! ## `structure` (syllable.ts:448-474) -/

def structureErrMsg : String :=
  "Syllable contains a consonant between two vowels, i.e. does not have (C)V(C) structure"

/-- The scan of `parts` building the onset/nucleus/coda triple; a `Vowel`
reached while the coda is nonempty throws. -/
def structGo : List SPart → List SPart → List SPart → List SPart →
    Except String (List SPart × List SPart × List SPart)
  | o, n, c, [] => .ok (o, n, c)
  | o, n, c, p :: r =>
    if p.isConsonant then
      if n.isEmpty then structGo (o ++ [p]) n c r else structGo o n (c ++ [p]) r
    else if p.isVowel then
      if c.isEmpty then structGo o (n ++ [p]) c r else .error structureErrMsg
    else structGo o n c r

/-- The `structure` accessor as a function of the parts list. -/
def structureOf (ps : List SPart) : Except String (List SPart × List SPart × List SPart) :=
  structGo [] [] [] ps

def exceptIsError : Except String α → Bool
  | .error _ => true
  | .ok _ => false

/-! ## Text options (`text.ts`, part_003) -/

inductive Schema
  | tiberian
  | traditional
deriving DecidableEq

/-- The `SylOpts` interface (text.ts:11-29): the four boolean options, the
schema, and `holemHaser` (documented in the spec's interface section and
read by `holemWaw`). `none` models an absent key. -/
inductive HolemHaserOpt
  | remove
  | unset
deriving DecidableEq

structure SylOpts where
  sqnmlvy : Option Bool := none
  longVowels : Option Bool := none
  wawShureq : Option Bool := none
  qametsQatan : Option Bool := none
  schema : Option Schema := none
  holemHaser : HolemHaserOpt := HolemHaserOpt.unset
deriving DecidableEq

/-- The effective options object produced by `setOptions`: the own keys of
the returned JS object.  `vavShureq` records the stray key written by
`setSchemaOptions` (text.ts:57-58), which is not part of `SylOpts`. -/
structure EffOpts where
  sqnmlvy : Option Bool := none
  longVowels : Option Bool := none
  wawShureq : Option Bool := none
  qametsQatan : Option Bool := none
  vavShureq : Option Bool := none
deriving DecidableEq

/-- `Text.setSchemaOptions` (text.ts:56-60): note that both presets write a
key named `vavShureq`, leaving `wawShureq` absent. -/
def setSchemaOptions (schema : Schema) : EffOpts :=
  match schema with
  | Schema.traditional =>
    { qametsQatan := some true, sqnmlvy := some true, longVowels := some true,
      vavShureq := some true }
  | Schema.tiberian =>
    { qametsQatan := some false, sqnmlvy := some true, longVowels := some false,
      vavShureq := some false }

/-- `Text.setDefaultOptions` (text.ts:62-70). -/
def setDefaultOptions (options : SylOpts) : EffOpts :=
  { qametsQatan := some (options.qametsQatan.getD true),
    sqnmlvy := some (options.sqnmlvy.getD true),
    longVowels := some (options.longVowels.getD true),
    wawShureq := some (options.wawShureq.getD true),
    vavShureq := none }

/-- `Text.setOptions` (text.ts:51-54). -/
def setOptions (options : SylOpts) : EffOpts :=
  match options.schema with
  | some schema => setSchemaOptions schema
  | none => setDefaultOptions options

/-! ## Input validation (`text.ts`, part_003:43-49) -/

/-- The character class of the `niqqud` regex `/[\u{05B0}-\u{05BC},\u{05C7}]/u`
at text.ts:44, including the literal comma that appears inside the class. -/
def niqqudClassCh (c : Char) : Bool :=
  (shevaCh ≤ c && c ≤ dageshCh) || c = ',' || c = qametsQatanCh

/-- `Text.validateInput`: throws when no character of the class occurs. -/
def validateInput (text : List Char) : Except String (List Char) :=
  if text.any niqqudClassCh then .ok text else .error "Text must contain niqqud"

/-- A Hebrew vowel point in the sense of the spec (sequence class 3):
sheva through qubuts (U+05B0-U+05BB) or qamets qatan (U+05C7).  The dagesh
U+05BC is class 1, not a vowel point. -/
def isVowelPointCh (c : Char) : Bool :=
  (shevaCh ≤ c && c ≤ 'ֻ') || c = qametsQatanCh

/-! ## Theorems for claims C4-C7 -/

/-- A walk state in which a Consonant part has been emitted but the most
recent part is a Vowel: the state reached after the characters bet, patah. -/
def c4State : List SPart × Bool :=
  ([SPart.consonant [⟨['ב'], 0⟩] ConsonantType.onsetConsonant,
    SPart.vowel [⟨[patahCh], 3⟩]], true)

/-- C4: the claim (and the comment at syllable.ts:360-361) says a
sequence-class 1-2 character is appended to the most recent Consonant part
when one has been emitted, else becomes a new HebrewMark.  The code instead
runs `for (let j = parts.length - 1; j >= 0; j++)`, which can only inspect
the last part and otherwise never exits: at a state with parts
[Consonant, Vowel] a dagesh makes the loop run forever (modelled `none`),
although a Consonant part exists. -/
theorem charStep_class12_diverges :
    charStep 0 c4State ⟨[dageshCh], 1⟩ = none := by rfl

/-- A syllable over a single shureq-flagged cluster carrying an extra
dagesh character (input "וּּ", which passes `validateInput`). -/
def sylC5 : Syllable :=
  { clusters :=
      [{ chars := [⟨[vavCh], 0⟩, ⟨[dageshCh], 1⟩, ⟨[dageshCh], 1⟩], isShureq := true }],
    isFinal := true }

/-- C5: the spec says every derived-value computation terminates once
input validation passes, but `parts` hits the non-terminating `j++` loop of
syllable.ts:364 on this syllable: after the shureq emits a Vowel, the
leftover dagesh (class 1) arrives while the last part is not a Consonant. -/
theorem partsOf_nonterminating :
    partsOf sylC5 none = none := by rfl

/-- C6: with `schema` set, the claim (and the spec) says the effective
options carry `wawShureq` true (traditional) or false (tiberian).  The code
writes a stray key `vavShureq` instead (text.ts:57-58), so `wawShureq` is
absent from the effective options for both presets. -/
theorem setOptions_schema_wawShureq_bug :
    (setOptions { schema := some Schema.traditional }).wawShureq = none ∧
    (setOptions { schema := some Schema.traditional }).vavShureq = some true ∧
    (setOptions { schema := some Schema.tiberian }).wawShureq = none ∧
    (setOptions { schema := some Schema.tiberian }).vavShureq = some false :=
  ⟨rfl, rfl, rfl, rfl⟩

/-- C7 counterexample: the string "," contains no Hebrew vowel point at
all, yet construction succeeds, because the `niqqud` character class of
text.ts:44 contains a literal comma. -/
theorem validateInput_comma_counterexample :
    validateInput [','] = .ok [','] ∧ [','].all (fun c => !(isVowelPointCh c)) = true :=
  ⟨rfl, rfl⟩

/-- C7 amended: construction throws iff the string contains no character
of the class U+05B0-U+05BC, comma, U+05C7 actually tested by the code; in
particular it never throws for a string containing a vowel point. -/
theorem validateInput_error_iff (t : List Char) :
    (exceptIsError (validateInput t) = true ↔ ¬ ∃ c ∈ t, niqqudClassCh c = true) ∧
    ((∃ c ∈ t, isVowelPointCh c = true) → exceptIsError (validateInput t) = false) := by
  constructor
  · by_cases h : t.any niqqudClassCh <;>
      simp [validateInput, exceptIsError, h, List.any_eq_true] <;>
      simpa [List.any_eq_true] using h
  · rintro ⟨c, hc, hv⟩
    have hcls : niqqudClassCh c = true := by
      simp only [isVowelPointCh, Bool.or_eq_true, Bool.and_eq_true, decide_eq_true_eq] at hv
      simp only [niqqudClassCh, Bool.or_eq_true, Bool.and_eq_true, decide_eq_true_eq]
      rcases hv with ⟨h1, h2⟩ | h3
      · exact Or.inl (Or.inl ⟨h1, le_trans h2 (by decide)⟩)
      · exact Or.inr h3
    have : t.any niqqudClassCh = true := List.any_eq_true.mpr ⟨c, hc, hcls⟩
    simp [validateInput, exceptIsError, this]

/-- Witness for the amended C7 theorem at the input consisting of a single
patah. -/
theorem validateInput_error_iff_witness :
    exceptIsError (validateInput [patahCh]) = false :=
  (validateInput_error_iff [patahCh]).2 ⟨patahCh, by decide, by decide⟩

/-! ## C3: the structure invariant, stated from the claim's words -/

/-- The parts list contains a Vowel part somewhere. -/
def hasV (ps : List SPart) : Bool := ps.any SPart.isVowel

/-- The parts list contains a Consonant part with a Vowel part after it. -/
def hasConsThenVowel : List SPart → Bool
  | [] => false
  | p :: r => (p.isConsonant && hasV r) || hasConsThenVowel r

/-- From the claim: the parts list contains a Vowel part occurring after a
Consonant part that itself follows a Vowel part. -/
def hasVowelConsVowel : List SPart → Bool
  | [] => false
  | p :: r => (p.isVowel && hasConsThenVowel r) || hasVowelConsVowel r

/-- From the claim: the onset is all Consonant parts before the first
Vowel part. -/
def onsetSpec (ps : List SPart) : List SPart :=
  (ps.takeWhile (fun p => !p.isVowel)).filter SPart.isConsonant

/-- From the claim: the nucleus is all Vowel parts. -/
def nucleusSpec (ps : List SPart) : List SPart := ps.filter SPart.isVowel

/-- From the claim: the coda is all Consonant parts after the first
Vowel part. -/
def codaSpec (ps : List SPart) : List SPart :=
  (ps.dropWhile (fun p => !p.isVowel)).filter SPart.isConsonant

lemma SPart.not_consonant_of_vowel {p : SPart} (h : p.isVowel = true) :
    p.isConsonant = false := by
  cases p <;> simp_all [SPart.isVowel, SPart.isConsonant]

lemma SPart.not_vowel_of_consonant {p : SPart} (h : p.isConsonant = true) :
    p.isVowel = false := by
  cases p <;> simp_all [SPart.isVowel, SPart.isConsonant]

lemma isEmpty_false_of_ne {α : Type} {l : List α} (h : l ≠ []) : l.isEmpty = false := by
  cases l with
  | nil => exact absurd rfl h
  | cons a l => rfl

lemma hasConsThenVowel_imp_hasV : ∀ {l : List SPart},
    hasConsThenVowel l = true → hasV l = true := by
  intro l
  induction l with
  | nil => simp [hasConsThenVowel]
  | cons p r ih =>
    intro h
    simp only [hasConsThenVowel, Bool.or_eq_true, Bool.and_eq_true] at h
    rcases h with ⟨_, hv⟩ | h
    · simp only [hasV, List.any_cons, Bool.or_eq_true]
      exact Or.inr (by simpa [hasV] using hv)
    · simp only [hasV, List.any_cons, Bool.or_eq_true]
      exact Or.inr (by simpa [hasV] using ih h)

lemma hasVowelConsVowel_imp_hasCTV : ∀ {l : List SPart},
    hasVowelConsVowel l = true → hasConsThenVowel l = true := by
  intro l
  induction l with
  | nil => simp [hasVowelConsVowel]
  | cons p r ih =>
    intro h
    simp only [hasVowelConsVowel, Bool.or_eq_true, Bool.and_eq_true] at h
    simp only [hasConsThenVowel, Bool.or_eq_true]
    rcases h with ⟨_, hc⟩ | h
    · exact Or.inr hc
    · exact Or.inr (ih h)

lemma hasV_eq_false_of_no_vowel {l : List SPart} (h : ∀ p ∈ l, p.isVowel = false) :
    hasV l = false := by
  simp only [hasV, List.any_eq_false]
  intro p hp
  simp [h p hp]

lemma hasConsThenVowel_eq_false_of_no_cons {l : List SPart}
    (h : ∀ p ∈ l, p.isConsonant = false) : hasConsThenVowel l = false := by
  induction l with
  | nil => rfl
  | cons p r ih =>
    simp only [hasConsThenVowel, Bool.or_eq_false_iff, Bool.and_eq_false_iff]
    exact ⟨Or.inl (h p (by simp)), ih (fun q hq => h q (by simp [hq]))⟩

lemma hasVowelConsVowel_eq_false_of_no_vowel {l : List SPart}
    (h : ∀ p ∈ l, p.isVowel = false) : hasVowelConsVowel l = false := by
  induction l with
  | nil => rfl
  | cons p r ih =>
    simp only [hasVowelConsVowel, Bool.or_eq_false_iff, Bool.and_eq_false_iff]
    exact ⟨Or.inl (h p (by simp)), ih (fun q hq => h q (by simp [hq]))⟩

lemma hasVowelConsVowel_append_of_no_vowel {a l : List SPart}
    (h : ∀ p ∈ a, p.isVowel = false) :
    hasVowelConsVowel (a ++ l) = hasVowelConsVowel l := by
  induction a with
  | nil => rfl
  | cons p r ih =>
    simp only [List.cons_append, hasVowelConsVowel, h p (by simp), Bool.false_and,
      Bool.false_or]
    exact ih (fun q hq => h q (by simp [hq]))

lemma hasConsThenVowel_append_of_no_cons {a l : List SPart}
    (h : ∀ p ∈ a, p.isConsonant = false) :
    hasConsThenVowel (a ++ l) = hasConsThenVowel l := by
  induction a with
  | nil => rfl
  | cons p r ih =>
    simp only [List.cons_append, hasConsThenVowel, h p (by simp), Bool.false_and,
      Bool.false_or]
    exact ih (fun q hq => h q (by simp [hq]))

lemma hasVowelConsVowel_cons_vowel {v : SPart} (hv : v.isVowel = true)
    (b : List SPart) :
    hasVowelConsVowel (v :: b) = hasConsThenVowel b := by
  simp only [hasVowelConsVowel, hv, Bool.true_and]
  cases h : hasVowelConsVowel b with
  | false => simp
  | true => simp [hasVowelConsVowel_imp_hasCTV h]

lemma hasConsThenVowel_cons_cons {c : SPart} (hc : c.isConsonant = true)
    (b : List SPart) :
    hasConsThenVowel (c :: b) = hasV b := by
  simp only [hasConsThenVowel, hc, Bool.true_and]
  cases h : hasConsThenVowel b with
  | false => simp
  | true => simp [hasConsThenVowel_imp_hasV h]

lemma structGo_nil (o n c : List SPart) : structGo o n c [] = .ok (o, n, c) := rfl

lemma structGo_cons (o n c : List SPart) (p : SPart) (r : List SPart) :
    structGo o n c (p :: r) =
      if p.isConsonant then
        if n.isEmpty then structGo (o ++ [p]) n c r else structGo o n (c ++ [p]) r
      else if p.isVowel then
        if c.isEmpty then structGo o (n ++ [p]) c r else .error structureErrMsg
      else structGo o n c r := rfl

lemma hasV_cons (p : SPart) (r : List SPart) : hasV (p :: r) = (p.isVowel || hasV r) := by
  simp [hasV]

/-- Coda phase: once the coda is nonempty, any further Vowel throws and all
further Consonants go to the coda. -/
lemma structGo_coda : ∀ (r : List SPart) (o n c : List SPart), n ≠ [] → c ≠ [] →
    structGo o n c r =
      (if hasV r then Except.error structureErrMsg
       else Except.ok (o, n, c ++ r.filter SPart.isConsonant)) := by
  intro r
  induction r with
  | nil => intro o n c _ _; simp [structGo_nil, hasV]
  | cons p r ih =>
    intro o n c hn hc
    rw [structGo_cons]
    by_cases hp : p.isConsonant = true
    · have hv := SPart.not_vowel_of_consonant hp
      rw [if_pos hp, if_neg (by simp [isEmpty_false_of_ne hn]),
        ih o n (c ++ [p]) hn (by simp), hasV_cons, hv, Bool.false_or, List.filter_cons]
      simp [hp, List.append_assoc]
    · by_cases hv : p.isVowel = true
      · rw [if_neg hp, if_pos hv, if_neg (by simp [isEmpty_false_of_ne hc]),
          hasV_cons, hv, Bool.true_or, if_pos rfl]
      · rw [if_neg hp, if_neg hv, ih o n c hn hc, hasV_cons, List.filter_cons]
        have hv' : p.isVowel = false := by simpa using hv
        have hp' : p.isConsonant = false := by simpa using hp
        simp [hv', hp']

/-- Nucleus phase: with a nonempty nucleus and an empty coda, Vowels keep
joining the nucleus until the first Consonant opens the coda. -/
lemma structGo_nucleus : ∀ (r : List SPart) (o n : List SPart), n ≠ [] →
    structGo o n [] r =
      (match r.dropWhile (fun p => !p.isConsonant) with
       | [] => Except.ok (o, n ++ r.filter SPart.isVowel, [])
       | cc :: b =>
         structGo o (n ++ (r.takeWhile (fun p => !p.isConsonant)).filter SPart.isVowel)
           [cc] b) := by
  intro r
  induction r with
  | nil => intro o n _; simp [structGo_nil]
  | cons p r ih =>
    intro o n hn
    rw [structGo_cons]
    by_cases hp : p.isConsonant = true
    · rw [if_pos hp, if_neg (by simp [isEmpty_false_of_ne hn]),
        List.dropWhile_cons, List.takeWhile_cons]
      simp [hp]
    · by_cases hv : p.isVowel = true
      · rw [if_neg hp, if_pos hv, if_pos (by simp), ih o (n ++ [p]) (by simp),
          List.dropWhile_cons, List.takeWhile_cons]
        have hp' : p.isConsonant = false := by simpa using hp
        rw [List.filter_cons]
        cases hdw : r.dropWhile (fun q => !q.isConsonant) with
        | nil => simp [hp', hv, hdw]
        | cons cc b => simp [hp', hv, hdw]
      · rw [if_neg hp, if_neg hv, ih o n hn, List.dropWhile_cons, List.takeWhile_cons]
        have hp' : p.isConsonant = false := by simpa using hp
        have hv' : p.isVowel = false := by simpa using hv
        rw [List.filter_cons]
        cases hdw : r.dropWhile (fun q => !q.isConsonant) with
        | nil => simp [hp', hv', hdw]
        | cons cc b => simp [hp', hv', hdw]

/-- Onset phase: with empty nucleus and coda, Consonants join the onset
until the first Vowel opens the nucleus. -/
lemma structGo_onset : ∀ (r : List SPart) (o : List SPart),
    structGo o [] [] r =
      (match r.dropWhile (fun p => !p.isVowel) with
       | [] => Except.ok (o ++ r.filter SPart.isConsonant, [], [])
       | v :: b =>
         structGo (o ++ (r.takeWhile (fun p => !p.isVowel)).filter SPart.isConsonant)
           [v] [] b) := by
  intro r
  induction r with
  | nil => intro o; simp [structGo_nil]
  | cons p r ih =>
    intro o
    rw [structGo_cons]
    by_cases hp : p.isConsonant = true
    · have hv := SPart.not_vowel_of_consonant hp
      rw [if_pos hp, if_pos (by simp), ih (o ++ [p]), List.dropWhile_cons,
        List.takeWhile_cons, List.filter_cons]
      cases hdw : r.dropWhile (fun q => !q.isVowel) with
      | nil => simp [hp, hv, hdw]
      | cons v b => simp [hp, hv, hdw]
    · by_cases hv : p.isVowel = true
      · rw [if_neg hp, if_pos hv, if_pos (by simp), List.dropWhile_cons]
        simp [hv]
      · rw [if_neg hp, if_neg hv, ih o, List.dropWhile_cons, List.takeWhile_cons,
          List.filter_cons]
        have hp' : p.isConsonant = false := by simpa using hp
        have hv' : p.isVowel = false := by simpa using hv
        cases hdw : r.dropWhile (fun q => !q.isVowel) with
        | nil => simp [hp', hv', hdw]
        | cons v b => simp [hp', hv', hdw]

lemma dropWhile_head_not {α : Type} (p : α → Bool) : ∀ (l : List α) {x : α} {xs : List α},
    l.dropWhile p = x :: xs → p x = false := by
  intro l
  induction l with
  | nil => intro x xs h; cases h
  | cons a l ih =>
    intro x xs h
    rw [List.dropWhile_cons] at h
    by_cases ha : p a = true
    · exact ih (by simpa [ha] using h)
    · have ha' : p a = false := by simpa using ha
      rw [if_neg (by simp [ha'])] at h
      cases h
      exact ha'

/-- C3: for any parts list, `structure` throws the structural-contradiction
error exactly when the list contains a Vowel part occurring after a
Consonant part that itself follows a Vowel part, and when no error is
thrown the triple consists of the Consonant parts before the first Vowel
part, all the Vowel parts (one nucleus group), and the Consonant parts
after the first Vowel part. -/
theorem structureOf_matches_claim (ps : List SPart) :
    (exceptIsError (structureOf ps) = hasVowelConsVowel ps) ∧
    (∀ o n c, structureOf ps = .ok (o, n, c) →
      o = onsetSpec ps ∧ n = nucleusSpec ps ∧ c = codaSpec ps) := by
  have hsplit1 := List.takeWhile_append_dropWhile (fun p => !p.isVowel) ps
  have htw1 : ∀ q ∈ ps.takeWhile (fun p => !p.isVowel), q.isVowel = false := by
    intro q hq
    simpa using List.mem_takeWhile_imp hq
  cases h1 : ps.dropWhile (fun p => !p.isVowel) with
  | nil =>
    have htweq : ps.takeWhile (fun p => !p.isVowel) = ps := by
      rw [h1, List.append_nil] at hsplit1; exact hsplit1
    have hnov : ∀ q ∈ ps, q.isVowel = false := by
      intro q hq
      apply htw1
      rw [htweq]
      exact hq
    have hfv : ps.filter SPart.isVowel = [] := by
      rw [List.filter_eq_nil_iff]
      intro q hq
      simp [hnov q hq]
    have hgo : structureOf ps = .ok (ps.filter SPart.isConsonant, [], []) := by
      unfold structureOf
      rw [structGo_onset, h1]
      simp
    constructor
    · rw [hgo, hasVowelConsVowel_eq_false_of_no_vowel hnov]
      rfl
    · intro o n c hok
      rw [hgo] at hok
      simp only [Except.ok.injEq, Prod.mk.injEq] at hok
      obtain ⟨ho, hn, hc⟩ := hok
      refine ⟨?_, ?_, ?_⟩
      · rw [← ho]
        simp only [onsetSpec, htweq]
      · rw [← hn]
        simp only [nucleusSpec, hfv]
      · rw [← hc]
        simp only [codaSpec, h1, List.filter_nil]
  | cons v b1 =>
    have hv : v.isVowel = true := by
      have h := dropWhile_head_not (fun p => !p.isVowel) ps h1
      simpa using h
    have hps : ps.takeWhile (fun p => !p.isVowel) ++ v :: b1 = ps := by
      rw [h1] at hsplit1; exact hsplit1
    have hftw1 : (ps.takeWhile (fun p => !p.isVowel)).filter SPart.isVowel = [] := by
      rw [List.filter_eq_nil_iff]
      intro q hq
      simp [htw1 q hq]
    have hgo1 : structureOf ps =
        structGo ((ps.takeWhile (fun p => !p.isVowel)).filter SPart.isConsonant)
          [v] [] b1 := by
      unfold structureOf
      rw [structGo_onset, h1]
      exact rfl
    have hsplit2 := List.takeWhile_append_dropWhile (fun p => !p.isConsonant) b1
    have htw2 : ∀ q ∈ b1.takeWhile (fun p => !p.isConsonant), q.isConsonant = false := by
      intro q hq
      simpa using List.mem_takeWhile_imp hq
    have hftw2 : (b1.takeWhile (fun p => !p.isConsonant)).filter SPart.isConsonant = [] := by
      rw [List.filter_eq_nil_iff]
      intro q hq
      simp [htw2 q hq]
    have hAeq : hasVowelConsVowel ps = hasConsThenVowel b1 := by
      rw [← hps, hasVowelConsVowel_append_of_no_vowel htw1, hasVowelConsVowel_cons_vowel hv]
    cases h2 : b1.dropWhile (fun p => !p.isConsonant) with
    | nil =>
      have htweq2 : b1.takeWhile (fun p => !p.isConsonant) = b1 := by
        rw [h2, List.append_nil] at hsplit2; exact hsplit2
      have hnoc : ∀ q ∈ b1, q.isConsonant = false := by
        intro q hq
        apply htw2
        rw [htweq2]
        exact hq
      have hfcb1 : b1.filter SPart.isConsonant = [] := by
        rw [List.filter_eq_nil_iff]
        intro q hq
        simp [hnoc q hq]
      have hgo2 : structureOf ps =
          .ok ((ps.takeWhile (fun p => !p.isVowel)).filter SPart.isConsonant,
               [v] ++ b1.filter SPart.isVowel, []) := by
        rw [hgo1, structGo_nucleus b1 _ [v] (by simp), h2]
      constructor
      · rw [hgo2, hAeq, hasConsThenVowel_eq_false_of_no_cons hnoc]
        rfl
      · intro o n c hok
        rw [hgo2] at hok
        simp only [Except.ok.injEq, Prod.mk.injEq] at hok
        obtain ⟨ho, hn, hc⟩ := hok
        refine ⟨?_, ?_, ?_⟩
        · rw [← ho]
          rfl
        · rw [← hn]
          simp only [nucleusSpec]
          rw [← hps, List.filter_append, hftw1, List.nil_append, List.filter_cons,
            if_pos hv]
          simp
        · rw [← hc]
          simp only [codaSpec]
          rw [h1, List.filter_cons, if_neg (by simp [SPart.not_consonant_of_vowel hv]),
            hfcb1]
    | cons cc b2 =>
      have hcc : cc.isConsonant = true := by
        have h := dropWhile_head_not (fun p => !p.isConsonant) b1 h2
        simpa using h
      have hb1 : b1.takeWhile (fun p => !p.isConsonant) ++ cc :: b2 = b1 := by
        rw [h2] at hsplit2; exact hsplit2
      have hAeq2 : hasVowelConsVowel ps = hasV b2 := by
        rw [hAeq, ← hb1, hasConsThenVowel_append_of_no_cons htw2,
          hasConsThenVowel_cons_cons hcc]
      have hgo2 : structureOf ps =
          structGo ((ps.takeWhile (fun p => !p.isVowel)).filter SPart.isConsonant)
            ([v] ++ (b1.takeWhile (fun p => !p.isConsonant)).filter SPart.isVowel)
            [cc] b2 := by
        rw [hgo1, structGo_nucleus b1 _ [v] (by simp), h2]
      have hgo3 : structureOf ps =
          (if hasV b2 then Except.error structureErrMsg
           else .ok ((ps.takeWhile (fun p => !p.isVowel)).filter SPart.isConsonant,
                [v] ++ (b1.takeWhile (fun p => !p.isConsonant)).filter SPart.isVowel,
                [cc] ++ b2.filter SPart.isConsonant)) := by
        rw [hgo2, structGo_coda b2 _ _ [cc] (by simp) (by simp)]
      constructor
      · rw [hgo3, hAeq2]
        cases hb2v : hasV b2 with
        | true => simp [exceptIsError]
        | false => simp [exceptIsError]
      · intro o n c hok
        rw [hgo3] at hok
        cases hb2v : hasV b2 with
        | true =>
          rw [hb2v] at hok
          simp at hok
        | false =>
          rw [hb2v] at hok
          simp only [Bool.false_eq_true, if_false, Except.ok.injEq, Prod.mk.injEq] at hok
          obtain ⟨ho, hn, hc⟩ := hok
          have hfvb2 : b2.filter SPart.isVowel = [] := by
            rw [List.filter_eq_nil_iff]
            intro q hq
            have h := List.any_eq_false.mp (by simpa [hasV] using hb2v) q hq
            simpa using h
          refine ⟨?_, ?_, ?_⟩
          · rw [← ho]
            rfl
          · rw [← hn]
            simp only [nucleusSpec]
            rw [← hps, List.filter_append, hftw1, List.nil_append, List.filter_cons,
              if_pos hv]
            conv_rhs => rw [← hb1]
            rw [List.filter_append, List.filter_cons,
              if_neg (by simp [SPart.not_vowel_of_consonant hcc]), hfvb2]
            simp
          · rw [← hc]
            simp only [codaSpec]
            rw [h1, List.filter_cons, if_neg (by simp [SPart.not_consonant_of_vowel hv]),
              ← hb1, List.filter_append, hftw2, List.nil_append, List.filter_cons,
              if_pos hcc]
            simp

/-- Witness for C3 at the parts list [Consonant, Vowel]. -/
def c3Parts : List SPart :=
  [SPart.consonant [⟨['ש'], 0⟩] ConsonantType.onsetConsonant,
   SPart.vowel [⟨[patahCh], 3⟩]]

theorem structureOf_matches_claim_witness :
    SPart.consonant [⟨['ש'], 0⟩] ConsonantType.onsetConsonant :: [] = onsetSpec c3Parts ∧
    SPart.vowel [⟨[patahCh], 3⟩] :: [] = nucleusSpec c3Parts ∧
    ([] : List SPart) = codaSpec c3Parts :=
  (structureOf_matches_claim c3Parts).2 _ _ _ rfl

/-! ## C1: the gemination rule -/

/-- A non-sheva Vowel part (the test at syllable.ts:402): a Vowel part
whose text does not contain the sheva character. -/
def nonShevaVowelB (p : SPart) : Bool := p.isVowel && !(containsCh p.text shevaCh)

/-- From the claim: no Consonant part occurs after any non-sheva Vowel part
of the list, i.e. the syllable is phonologically open. -/
def noConsonantAfterNSV : List SPart → Bool
  | [] => true
  | p :: r =>
    (!(nonShevaVowelB p) || !(r.any SPart.isConsonant)) && noConsonantAfterNSV r

/-- From the claim: the walked parts contain at least one non-sheva Vowel
part, with no Consonant part after it. -/
def phonologicallyOpenB (ps : List SPart) : Bool :=
  ps.any nonShevaVowelB && noConsonantAfterNSV ps

/-- Some non-sheva Vowel part is followed (not necessarily immediately) by
a Consonant part. -/
def pairB : List SPart → Bool
  | [] => false
  | p :: r => (nonShevaVowelB p && r.any SPart.isConsonant) || pairB r

lemma gemStep_eq (fl : Bool × Bool) (p : SPart) :
    gemStep fl p = (fl.1 || nonShevaVowelB p, fl.2 || (fl.1 && p.isConsonant)) := by
  obtain ⟨a, b⟩ := fl
  cases p with
  | consonant cs t =>
    cases a <;> simp [gemStep, nonShevaVowelB, SPart.isVowel, SPart.isConsonant]
  | vowel cs =>
    cases hs : containsCh (SPart.vowel cs).text shevaCh <;> cases a <;>
      simp [gemStep, nonShevaVowelB, SPart.isVowel, SPart.isConsonant, hs]
  | hebrewMark cs =>
    simp [gemStep, nonShevaVowelB, SPart.isVowel, SPart.isConsonant]
  | nonHebrew cs =>
    simp [gemStep, nonShevaVowelB, SPart.isVowel, SPart.isConsonant]

lemma gemFlags_foldl : ∀ (ps : List SPart) (a b : Bool),
    ps.foldl gemStep (a, b) =
      (a || ps.any nonShevaVowelB,
       b || (a && ps.any SPart.isConsonant) || pairB ps) := by
  intro ps
  induction ps with
  | nil => intro a b; simp [pairB]
  | cons p r ih =>
    intro a b
    rw [List.foldl_cons, gemStep_eq, ih]
    simp only [List.any_cons, pairB, Prod.mk.injEq]
    cases a <;> cases b <;> cases hn : nonShevaVowelB p <;> cases hc : p.isConsonant <;>
      simp [Bool.or_assoc]

lemma gemFlags_fst (ps : List SPart) : (gemFlags ps).1 = ps.any nonShevaVowelB := by
  rw [gemFlags, gemFlags_foldl]
  simp

lemma gemFlags_snd (ps : List SPart) : (gemFlags ps).2 = pairB ps := by
  rw [gemFlags, gemFlags_foldl]
  simp

lemma noConsonantAfterNSV_eq (ps : List SPart) :
    noConsonantAfterNSV ps = !pairB ps := by
  induction ps with
  | nil => rfl
  | cons p r ih => simp [noConsonantAfterNSV, pairB, ih, Bool.not_or]

/-- C1: for a non-final syllable with a following syllable (as built by a
Text), `parts` appends exactly one extra Consonant part with role
coda-from-gemination, built from the following syllable's first cluster's
characters of sequence class at most 2, if and only if the walked parts
contain at least one non-sheva Vowel part with no Consonant part after it
(the syllable is phonologically open) and the following syllable's first
cluster contains the dagesh character U+05BC and is not flagged shureq; in
every other case the walked parts are returned with no gemination part
appended. -/
theorem partsOf_gemination_iff (s ns : Syllable) (c0 : Cluster) (cs : List Cluster)
    (ps : List SPart) (sv : Bool)
    (hfin : s.isFinal = false)
    (hns : ns.clusters = c0 :: cs)
    (hwalk : walkClusters s.isFinal 0 s.clusters ([], false) = some (ps, sv)) :
    (partsOf s (some ns) = some (ps ++ [gemPart c0]) ↔
      phonologicallyOpenB ps = true ∧ containsCh c0.text dageshCh = true ∧
        c0.isShureq = false) ∧
    (¬ (phonologicallyOpenB ps = true ∧ containsCh c0.text dageshCh = true ∧
        c0.isShureq = false) →
      partsOf s (some ns) = some ps) := by
  have hpo : partsOf s (some ns) =
      (if !s.isFinal && (gemFlags ps).1 && !(gemFlags ps).2 &&
          containsCh c0.text dageshCh && !c0.isShureq then
        some (ps ++ [gemPart c0]) else some ps) := by
    unfold partsOf
    rw [hwalk]
    show (match ns.clusters with
      | c0 :: _ =>
        if !s.isFinal && (gemFlags ps).1 && !(gemFlags ps).2 &&
            containsCh c0.text dageshCh && !c0.isShureq then
          some (ps ++ [gemPart c0])
        else some ps
      | [] => some ps) = _
    rw [hns]
  have hcond : (!s.isFinal && (gemFlags ps).1 && !(gemFlags ps).2 &&
      containsCh c0.text dageshCh && !c0.isShureq) = true ↔
      (phonologicallyOpenB ps = true ∧ containsCh c0.text dageshCh = true ∧
        c0.isShureq = false) := by
    rw [hfin, gemFlags_fst, gemFlags_snd]
    simp only [phonologicallyOpenB, noConsonantAfterNSV_eq, Bool.not_false, Bool.true_and,
      Bool.and_eq_true, Bool.not_eq_true', Bool.not_eq_eq_eq_not, Bool.not_true]
    tauto
  constructor
  · constructor
    · intro h
      by_cases hb : (!s.isFinal && (gemFlags ps).1 && !(gemFlags ps).2 &&
          containsCh c0.text dageshCh && !c0.isShureq) = true
      · exact hcond.mp hb
      · rw [hpo, if_neg hb] at h
        exfalso
        have heq := Option.some.inj h
        have hl := congrArg List.length heq
        simp at hl
    · intro h
      rw [hpo, if_pos (hcond.mpr h)]
  · intro h
    rw [hpo, if_neg (fun hb => h (hcond.mp hb))]

/-- Concrete instance for the C1 witness: an open syllable samek+patah
followed by a syllable whose first cluster is pe+dagesh. -/
def c1Cluster0 : Cluster := { chars := [⟨['פ'], 0⟩, ⟨[dageshCh], 1⟩] }

def c1Syl : Syllable := { clusters := [{ chars := [⟨['ס'], 0⟩, ⟨[patahCh], 3⟩] }] }

def c1Next : Syllable := { clusters := [c1Cluster0] }

def c1Walked : List SPart :=
  [SPart.consonant [⟨['ס'], 0⟩] ConsonantType.onsetConsonant,
   SPart.vowel [⟨[patahCh], 3⟩]]

theorem partsOf_gemination_iff_witness :
    partsOf c1Syl (some c1Next) = some (c1Walked ++ [gemPart c1Cluster0]) :=
  (partsOf_gemination_iff c1Syl c1Next c1Cluster0 [] c1Walked true rfl rfl (by decide)).1.mpr
    ⟨by decide, by decide, rfl⟩

/-! ## C2: furtive patah

Helper lemmas showing that the walk only appends parts for characters of
sequence class at least 3 (so the Vowel/Consonant pair emitted by the
furtive-patah branch keeps its position in the final parts list). -/

lemma charStep_ge3 (i : Nat) (parts : List SPart) (sv : Bool) (ch : HChar)
    (h : 3 ≤ ch.sequencePosition) :
    ∃ q sv2, charStep i (parts, sv) ch = some (parts ++ q, sv2) := by
  have h0 : ¬ ch.sequencePosition = 0 := by omega
  have h12 : ¬ (ch.sequencePosition = 1 ∨ ch.sequencePosition = 2) := by omega
  unfold charStep
  rw [if_neg h0, if_neg h12]
  by_cases h3 : ch.sequencePosition = 3
  · rw [if_pos h3]
    by_cases hs : ch.text = [shevaCh] ∧ 0 < i
    · exact ⟨[SPart.hebrewMark [ch]], sv, by rw [if_pos hs]⟩
    · exact ⟨[SPart.vowel [ch]], true, by rw [if_neg hs]⟩
  · rw [if_neg h3]
    by_cases hh : ch.text.any isHebrewCh = true
    · exact ⟨[SPart.hebrewMark [ch]], sv, by rw [if_pos hh]⟩
    · exact ⟨[SPart.nonHebrew [ch]], sv, by rw [if_neg hh]⟩

lemma charLoop_ge3 (i : Nat) : ∀ (chars : List HChar) (parts : List SPart) (sv : Bool),
    (∀ c ∈ chars, 3 ≤ c.sequencePosition) →
    ∃ q sv2, charLoop i (parts, sv) chars = some (parts ++ q, sv2) := by
  intro chars
  induction chars with
  | nil =>
    intro parts sv _
    exact ⟨[], sv, by simp [charLoop]⟩
  | cons ch rest ih =>
    intro parts sv hall
    obtain ⟨q1, sv1, h1⟩ := charStep_ge3 i parts sv ch (hall ch (by simp))
    obtain ⟨q2, sv2, h2⟩ := ih (parts ++ q1) sv1 (fun c hc => hall c (by simp [hc]))
    refine ⟨q1 ++ q2, sv2, ?_⟩
    show (match charStep i (parts, sv) ch with
      | none => none
      | some st2 => charLoop i st2 rest) = some (parts ++ (q1 ++ q2), sv2)
    rw [h1]
    show charLoop i (parts ++ q1, sv1) rest = some (parts ++ (q1 ++ q2), sv2)
    rw [h2, List.append_assoc]

lemma materPhase_skip (cl : Cluster) (x : List SPart × Bool × List HChar)
    (hm : cl.isMater = false) : materPhase cl x = x := by
  unfold materPhase
  rw [if_neg (by simp [hm])]

lemma furtiveHetAyin_append (x : List SPart × Bool × List HChar) :
    ∃ q sv2 rest, furtiveHetAyin x = (x.1 ++ q, sv2, rest) ∧ ∀ c ∈ rest, c ∈ x.2.2 := by
  obtain ⟨p0, sv0, ch0⟩ := x
  match ch0 with
  | [] => exact ⟨[], sv0, [], by simp [furtiveHetAyin], by simp⟩
  | [c0] => exact ⟨[], sv0, [c0], by simp [furtiveHetAyin], by simp⟩
  | c0 :: c1 :: rest =>
    by_cases hA : hetAyinTest c0.text = true ∧ c1.text = [patahCh]
    · exact ⟨[SPart.vowel [c1], SPart.consonant [c0] ConsonantType.codaConsonant], true,
        rest, by simp [furtiveHetAyin, hA], by intro c hc; simp [hc]⟩
    · exact ⟨[], sv0, c0 :: c1 :: rest, by simp [furtiveHetAyin, hA], by intro c hc; exact hc⟩

lemma furtiveHeDagesh_append (x : List SPart × Bool × List HChar) :
    ∃ q sv2 rest, furtiveHeDagesh x = (x.1 ++ q, sv2, rest) ∧ ∀ c ∈ rest, c ∈ x.2.2 := by
  obtain ⟨p0, sv0, ch0⟩ := x
  match ch0 with
  | [] => exact ⟨[], sv0, [], by simp [furtiveHeDagesh], by simp⟩
  | [c0] => exact ⟨[], sv0, [c0], by simp [furtiveHeDagesh], by simp⟩
  | [c0, c1] => exact ⟨[], sv0, [c0, c1], by simp [furtiveHeDagesh], by simp⟩
  | c0 :: c1 :: c2 :: rest =>
    by_cases hA : c0.text = [heCh] ∧ c1.text = [dageshCh] ∧ c2.text = [patahCh]
    · exact ⟨[SPart.vowel [c2], SPart.consonant [c0, c1] ConsonantType.codaConsonant], true,
        rest, by simp [furtiveHeDagesh, hA], by intro c hc; simp [hc]⟩
    · exact ⟨[], sv0, c0 :: c1 :: c2 :: rest, by simp [furtiveHeDagesh, hA],
        by intro c hc; exact hc⟩

lemma furtivePhase_append (doF : Bool) (x : List SPart × Bool × List HChar) :
    ∃ q sv2 rest, furtivePhase doF x = (x.1 ++ q, sv2, rest) ∧ ∀ c ∈ rest, c ∈ x.2.2 := by
  unfold furtivePhase
  by_cases hd : doF = true
  · rw [if_pos hd]
    obtain ⟨q1, sv1, r1, h1, hr1⟩ := furtiveHetAyin_append x
    obtain ⟨q2, sv2, r2, h2, hr2⟩ := furtiveHeDagesh_append (furtiveHetAyin x)
    refine ⟨q1 ++ q2, sv2, r2, ?_, ?_⟩
    · rw [h2, h1, List.append_assoc]
    · intro c hc
      have hc1 : c ∈ (furtiveHetAyin x).2.2 := hr2 c hc
      rw [h1] at hc1
      exact hr1 c hc1
  · rw [if_neg hd]
    exact ⟨[], x.2.1, x.2.2, by simp, fun c hc => hc⟩

/-- A cluster processed by the walk only appends parts when it is not a
mater and all its characters have sequence class at least 3 (as is the
case for the trailing non-Hebrew/punctuation clusters). -/
lemma clusterStep_append (isFinal : Bool) (i : Nat) (cl : Cluster) (rest : List Cluster)
    (parts : List SPart) (sv : Bool)
    (hm : cl.isMater = false)
    (hch : ∀ c ∈ cl.chars, 3 ≤ c.sequencePosition) :
    ∃ q sv2, clusterStep isFinal i cl rest (parts, sv) = some (parts ++ q, sv2) := by
  have hsh : ∃ q0 sv0 ch0, shureqPhase cl (parts, sv) = (parts ++ q0, sv0, ch0) ∧
      ∀ c ∈ ch0, c ∈ cl.chars := by
    unfold shureqPhase
    by_cases hs : cl.isShureq = true
    · rw [if_pos hs]
      exact ⟨[SPart.vowel (cl.chars.take 2)], true, cl.chars.drop 2, rfl,
        fun c hc => List.drop_subset _ _ hc⟩
    · rw [if_neg hs]
      exact ⟨[], sv, cl.chars, by simp, fun c hc => hc⟩
  obtain ⟨q0, sv0, ch0, hsh1, hsh2⟩ := hsh
  obtain ⟨q1, sv1, r1, hf1, hr1⟩ :=
    furtivePhase_append (isFinal && rest.all (fun c => c.isNotHebrew || c.isPunctuation))
      (parts ++ q0, sv0, ch0)
  obtain ⟨q2, sv2, h2⟩ := charLoop_ge3 i r1 ((parts ++ q0) ++ q1) sv1
    (fun c hc => hch c (hsh2 c (hr1 c hc)))
  refine ⟨q0 ++ q1 ++ q2, sv2, ?_⟩
  unfold clusterStep
  have hf1r : furtivePhase (isFinal && rest.all (fun c => c.isNotHebrew || c.isPunctuation))
      (parts ++ q0, sv0, ch0) = ((parts ++ q0) ++ q1, sv1, r1) := hf1
  rw [hsh1, materPhase_skip cl _ hm, hf1r]
  show charLoop i ((parts ++ q0) ++ q1, sv1) r1 = some (parts ++ (q0 ++ q1 ++ q2), sv2)
  rw [h2]
  rw [List.append_assoc, List.append_assoc, List.append_assoc]

/-- Walking a run of trailing non-mater clusters whose characters all have
sequence class at least 3 only appends parts. -/
lemma walkClusters_append_all (isFinal : Bool) : ∀ (post : List Cluster) (i : Nat)
    (parts : List SPart) (sv : Bool),
    (∀ cl ∈ post, cl.isMater = false ∧ ∀ c ∈ cl.chars, 3 ≤ c.sequencePosition) →
    ∃ q sv2, walkClusters isFinal i post (parts, sv) = some (parts ++ q, sv2) := by
  intro post
  induction post with
  | nil =>
    intro i parts sv _
    exact ⟨[], sv, by simp [walkClusters]⟩
  | cons cl post ih =>
    intro i parts sv hall
    obtain ⟨q1, sv1, h1⟩ := clusterStep_append isFinal i cl post parts sv
      (hall cl (by simp)).1 (hall cl (by simp)).2
    obtain ⟨q2, sv2, h2⟩ := ih (i + 1) (parts ++ q1) sv1
      (fun c hc => hall c (by simp [hc]))
    refine ⟨q1 ++ q2, sv2, ?_⟩
    show (match clusterStep isFinal i cl post (parts, sv) with
      | none => none
      | some st2 => walkClusters isFinal (i + 1) post st2) = some (parts ++ (q1 ++ q2), sv2)
    rw [h1]
    show walkClusters isFinal (i + 1) post (parts ++ q1, sv1) = some (parts ++ (q1 ++ q2), sv2)
    rw [h2, List.append_assoc]

/-- The walk over a prefix of the syllable's clusters, each cluster seeing
the remaining clusters of the prefix followed by `tail` (the clusters after
the prefix in the same syllable). -/
def walkPre (isFinal : Bool) (tail : List Cluster) : Nat → List Cluster →
    List SPart × Bool → Option (List SPart × Bool)
  | _, [], st => some st
  | i, cl :: rest, st =>
    match clusterStep isFinal i cl (rest ++ tail) st with
    | none => none
    | some st2 => walkPre isFinal tail (i + 1) rest st2

lemma walkClusters_split (isFinal : Bool) (tail : List Cluster) :
    ∀ (pre : List Cluster) (i : Nat) (st : List SPart × Bool),
    walkClusters isFinal i (pre ++ tail) st =
      (match walkPre isFinal tail i pre st with
       | none => none
       | some st2 => walkClusters isFinal (i + pre.length) tail st2) := by
  intro pre
  induction pre with
  | nil =>
    intro i st
    simp [walkPre]
  | cons cl pre ih =>
    intro i st
    show (match clusterStep isFinal i cl (pre ++ tail) st with
      | none => none
      | some st2 => walkClusters isFinal (i + 1) (pre ++ tail) st2) = _
    cases h : clusterStep isFinal i cl (pre ++ tail) st with
    | none =>
      show none = (match walkPre isFinal tail i (cl :: pre) st with
        | none => none
        | some st2 => walkClusters isFinal (i + (cl :: pre).length) tail st2)
      have hw : walkPre isFinal tail i (cl :: pre) st = none := by
        show (match clusterStep isFinal i cl (pre ++ tail) st with
          | none => none
          | some st2 => walkPre isFinal tail (i + 1) pre st2) = none
        rw [h]
      rw [hw]
    | some st2 =>
      show walkClusters isFinal (i + 1) (pre ++ tail) st2 = _
      rw [ih (i + 1) st2]
      have hw : walkPre isFinal tail i (cl :: pre) st = walkPre isFinal tail (i + 1) pre st2 := by
        show (match clusterStep isFinal i cl (pre ++ tail) st with
          | none => none
          | some st3 => walkPre isFinal tail (i + 1) pre st3) = _
        rw [h]
      rw [hw]
      have hn : i + (cl :: pre).length = i + 1 + pre.length := by
        simp [List.length_cons]
        omega
      simp only [hn]

/-- With the syllable final, the gemination branch never fires and `parts`
is exactly the walked parts, whatever `next` is. -/
lemma partsOf_final (s : Syllable) (next : Option Syllable) (ps : List SPart) (sv : Bool)
    (hfin : s.isFinal = true)
    (hw : walkClusters s.isFinal 0 s.clusters ([], false) = some (ps, sv)) :
    partsOf s next = some ps := by
  unfold partsOf
  rw [hw]
  cases next with
  | none => rfl
  | some ns =>
    show (match ns.clusters with
      | c0 :: _ =>
        if !s.isFinal && (gemFlags ps).1 && !(gemFlags ps).2 &&
            containsCh c0.text dageshCh && !c0.isShureq then
          some (ps ++ [gemPart c0])
        else some ps
      | [] => some ps) = some ps
    cases hcl : ns.clusters with
    | nil => rfl
    | cons c0 tl =>
      rw [hfin]
      simp

lemma shureqPhase_skip (cl : Cluster) (st : List SPart × Bool) (hs : cl.isShureq = false) :
    shureqPhase cl st = (st.1, st.2, cl.chars) := by
  unfold shureqPhase
  rw [if_neg (by simp [hs])]

lemma get?_append_len {α : Type} : ∀ (l1 l2 : List α) (k : Nat),
    (l1 ++ l2).get? (l1.length + k) = l2.get? k := by
  intro l1
  induction l1 with
  | nil => intro l2 k; simp
  | cons a l ih =>
    intro l2 k
    have h : (a :: l).length + k = (l.length + k) + 1 := by
      simp [List.length_cons]
      omega
    rw [h, List.cons_append, List.get?_cons_succ, ih]

lemma get?_append_pair {α : Type} (l1 : List α) (a b : α) (l2 : List α) :
    (l1 ++ a :: b :: l2).get? l1.length = some a ∧
    (l1 ++ a :: b :: l2).get? (l1.length + 1) = some b := by
  constructor
  · have h := get?_append_len l1 (a :: b :: l2) 0
    rw [Nat.add_zero] at h
    rw [h]
    rfl
  · rw [get?_append_len l1 (a :: b :: l2) 1]
    rfl

/-- C2: furtive patah.  For a final syllable whose remaining clusters are
all non-Hebrew or punctuation, if the current cluster's characters begin
with het/ayin followed by a patah point, or he + dagesh followed by a
patah, then `parts` emits the patah as a Vowel part immediately before the
consonant (together with its dagesh, for he) as a coda Consonant part —
the vowel textually precedes its consonant in part order.  The class-≥3
hypotheses on the remaining characters record the cluster invariant
(characters sorted by sequence class) and the content of non-Hebrew and
punctuation clusters. -/
theorem partsOf_furtive_patah (s : Syllable) (next : Option Syllable)
    (pre post : List Cluster) (cl : Cluster) (st0 : List SPart × Bool)
    (vc cc : List HChar)
    (hfin : s.isFinal = true)
    (hcls : s.clusters = pre ++ cl :: post)
    (hpre : walkPre s.isFinal (cl :: post) 0 pre ([], false) = some st0)
    (hshu : cl.isShureq = false) (hm : cl.isMater = false)
    (hpost : ∀ c ∈ post, (c.isNotHebrew || c.isPunctuation) = true ∧ c.isMater = false ∧
      ∀ ch ∈ c.chars, 3 ≤ ch.sequencePosition)
    (hcase :
      (∃ c0 c1 rest, cl.chars = c0 :: c1 :: rest ∧ hetAyinTest c0.text = true ∧
        c1.text = [patahCh] ∧ vc = [c1] ∧ cc = [c0] ∧
        ∀ ch ∈ rest, 3 ≤ ch.sequencePosition) ∨
      (∃ c0 c1 c2 rest, cl.chars = c0 :: c1 :: c2 :: rest ∧ c0.text = [heCh] ∧
        c1.text = [dageshCh] ∧ c2.text = [patahCh] ∧ vc = [c2] ∧ cc = [c0, c1] ∧
        ∀ ch ∈ rest, 3 ≤ ch.sequencePosition)) :
    ∃ ps, partsOf s next = some ps ∧
      ps.get? st0.1.length = some (SPart.vowel vc) ∧
      ps.get? (st0.1.length + 1) =
        some (SPart.consonant cc ConsonantType.codaConsonant) := by
  obtain ⟨p0, sv0⟩ := st0
  have hall : post.all (fun c => c.isNotHebrew || c.isPunctuation) = true :=
    List.all_eq_true.mpr (fun c hc => (hpost c hc).1)
  have hfp : ∃ q2 svx rest2, furtivePhase true (p0, sv0, cl.chars) =
      (p0 ++ SPart.vowel vc :: SPart.consonant cc ConsonantType.codaConsonant :: q2,
       svx, rest2) ∧ ∀ ch ∈ rest2, 3 ≤ ch.sequencePosition := by
    rcases hcase with ⟨c0, c1, rest, hchars, hhet, hpat, hvc, hcc, hrest⟩ |
      ⟨c0, c1, c2, rest, hchars, hhe, hdag, hpat, hvc, hcc, hrest⟩
    · have hx : (p0, sv0, cl.chars) = (p0, sv0, c0 :: c1 :: rest) := by rw [hchars]
      have hA : furtiveHetAyin (p0, sv0, cl.chars) =
          (p0 ++ [SPart.vowel [c1], SPart.consonant [c0] ConsonantType.codaConsonant],
           true, rest) := by
        rw [hx]
        show (if hetAyinTest c0.text = true ∧ c1.text = [patahCh] then
          (p0 ++ [SPart.vowel [c1], SPart.consonant [c0] ConsonantType.codaConsonant],
           true, rest)
          else (p0, sv0, c0 :: c1 :: rest)) = _
        rw [if_pos ⟨hhet, hpat⟩]
      obtain ⟨q2, sv2, rest2, hB, hmem⟩ := furtiveHeDagesh_append
        (p0 ++ [SPart.vowel [c1], SPart.consonant [c0] ConsonantType.codaConsonant],
         true, rest)
      refine ⟨q2, sv2, rest2, ?_, ?_⟩
      · show furtiveHeDagesh (furtiveHetAyin (p0, sv0, cl.chars)) = _
        rw [hA, hB, hvc, hcc]
        simp [List.append_assoc]
      · intro ch hch
        exact hrest ch (hmem ch hch)
    · have hx : (p0, sv0, cl.chars) = (p0, sv0, c0 :: c1 :: c2 :: rest) := by rw [hchars]
      have hA : furtiveHetAyin (p0, sv0, cl.chars) = (p0, sv0, c0 :: c1 :: c2 :: rest) := by
        rw [hx]
        show (if hetAyinTest c0.text = true ∧ c1.text = [patahCh] then
          (p0 ++ [SPart.vowel [c1], SPart.consonant [c0] ConsonantType.codaConsonant],
           true, c2 :: rest)
          else (p0, sv0, c0 :: c1 :: c2 :: rest)) = _
        rw [if_neg]
        rintro ⟨h1, _⟩
        rw [hhe] at h1
        exact absurd h1 (by decide)
      have hB : furtiveHeDagesh (p0, sv0, c0 :: c1 :: c2 :: rest) =
          (p0 ++ [SPart.vowel [c2], SPart.consonant [c0, c1] ConsonantType.codaConsonant],
           true, rest) := by
        show (if c0.text = [heCh] ∧ c1.text = [dageshCh] ∧ c2.text = [patahCh] then
          (p0 ++ [SPart.vowel [c2], SPart.consonant [c0, c1] ConsonantType.codaConsonant],
           true, rest)
          else (p0, sv0, c0 :: c1 :: c2 :: rest)) = _
        rw [if_pos ⟨hhe, hdag, hpat⟩]
      refine ⟨[], true, rest, ?_, hrest⟩
      show furtiveHeDagesh (furtiveHetAyin (p0, sv0, cl.chars)) = _
      rw [hA, hB, hvc, hcc]
  obtain ⟨q2, svx, rest2, hfp1, hfp2⟩ := hfp
  obtain ⟨q3, sv3, hloop⟩ := charLoop_ge3 pre.length rest2
    (p0 ++ SPart.vowel vc :: SPart.consonant cc ConsonantType.codaConsonant :: q2)
    svx hfp2
  have hF : (s.isFinal && post.all (fun c => c.isNotHebrew || c.isPunctuation)) = true := by
    rw [hfin, hall]
    rfl
  have hstep : clusterStep s.isFinal pre.length cl post (p0, sv0) =
      some (p0 ++ SPart.vowel vc :: SPart.consonant cc ConsonantType.codaConsonant ::
        (q2 ++ q3), sv3) := by
    unfold clusterStep
    rw [shureqPhase_skip cl _ hshu, materPhase_skip cl _ hm, hF, hfp1]
    show charLoop pre.length
      (p0 ++ SPart.vowel vc :: SPart.consonant cc ConsonantType.codaConsonant :: q2, svx)
      rest2 = _
    rw [hloop]
    simp [List.append_assoc]
  obtain ⟨q4, sv4, hq4⟩ := walkClusters_append_all s.isFinal post (pre.length + 1)
    (p0 ++ SPart.vowel vc :: SPart.consonant cc ConsonantType.codaConsonant :: (q2 ++ q3))
    sv3 (fun c hc => ⟨(hpost c hc).2.1, (hpost c hc).2.2⟩)
  have hwalkfull : walkClusters s.isFinal 0 s.clusters ([], false) =
      some (p0 ++ SPart.vowel vc :: SPart.consonant cc ConsonantType.codaConsonant ::
        (q2 ++ q3 ++ q4), sv4) := by
    rw [hcls, walkClusters_split s.isFinal (cl :: post) pre 0 ([], false), hpre]
    show walkClusters s.isFinal (0 + pre.length) (cl :: post) (p0, sv0) = _
    simp only [Nat.zero_add]
    show (match clusterStep s.isFinal pre.length cl post (p0, sv0) with
      | none => none
      | some st2 => walkClusters s.isFinal (pre.length + 1) post st2) = _
    rw [hstep]
    show walkClusters s.isFinal (pre.length + 1) post
      (p0 ++ SPart.vowel vc :: SPart.consonant cc ConsonantType.codaConsonant ::
        (q2 ++ q3), sv3) = _
    rw [hq4]
    simp [List.append_assoc]
  refine ⟨p0 ++ SPart.vowel vc :: SPart.consonant cc ConsonantType.codaConsonant ::
    (q2 ++ q3 ++ q4), partsOf_final s next _ sv4 hfin hwalkfull, ?_, ?_⟩
  · exact (get?_append_pair p0 _ _ _).1
  · exact (get?_append_pair p0 _ _ _).2

/-- Concrete instance for the C2 witness: a final syllable consisting of
one cluster, ayin followed by a patah point. -/
def c2Cluster : Cluster := { chars := [⟨[ayinCh], 0⟩, ⟨[patahCh], 3⟩] }

def c2Syl : Syllable := { clusters := [c2Cluster], isFinal := true }

theorem partsOf_furtive_patah_witness :
    ∃ ps, partsOf c2Syl none = some ps ∧
      ps.get? 0 = some (SPart.vowel [⟨[patahCh], 3⟩]) ∧
      ps.get? 1 = some (SPart.consonant [⟨[ayinCh], 0⟩] ConsonantType.codaConsonant) :=
  partsOf_furtive_patah c2Syl none [] [] c2Cluster ([], false)
    [⟨[patahCh], 3⟩] [⟨[ayinCh], 0⟩] rfl rfl rfl rfl rfl
    (fun c hc => absurd hc (List.not_mem_nil c))
    (Or.inl ⟨⟨[ayinCh], 0⟩, ⟨[patahCh], 3⟩, [], rfl, by decide, rfl, rfl, rfl,
      fun ch hch => absurd hch (List.not_mem_nil ch)⟩)

/-! ## C8: hasVowelName (syllable.ts:204-216) -/

def shevaName : List Char := ['S', 'H', 'E', 'V', 'A']

def shureqName : List Char := ['S', 'H', 'U', 'R', 'E', 'Q']

/-- Modelled from the spec: the base maps `charToNameMap`/`nameToCharMap`
live in utils/vowelMap.ts, which is not among the sources; the recognized
plain vowel names and their characters follow the spec's vowel inventory
(the niqqud vowel points), and the SHEVA and SHUREQ entries are added
exactly as at syllable.ts:30-34. -/
def sylNameToCharMap (name : List Char) : Option (List Char) :=
  if name = ['P', 'A', 'T', 'A', 'H'] then some [patahCh]
  else if name = ['H', 'A', 'T', 'A', 'F', '_', 'P', 'A', 'T', 'A', 'H'] then some ['ֲ']
  else if name = ['Q', 'A', 'M', 'A', 'T', 'S'] then some [qametsCh]
  else if name = ['H', 'A', 'T', 'A', 'F', '_', 'Q', 'A', 'M', 'A', 'T', 'S'] then some ['ֳ']
  else if name = ['S', 'E', 'G', 'O', 'L'] then some ['ֶ']
  else if name = ['H', 'A', 'T', 'A', 'F', '_', 'S', 'E', 'G', 'O', 'L'] then some ['ֱ']
  else if name = ['T', 'S', 'E', 'R', 'E'] then some ['ֵ']
  else if name = ['H', 'I', 'R', 'I', 'Q'] then some ['ִ']
  else if name = ['H', 'O', 'L', 'A', 'M'] then some [holemCh]
  else if name = ['Q', 'U', 'B', 'U', 'T', 'S'] then some ['ֻ']
  else if name = ['Q', 'A', 'M', 'A', 'T', 'S', '_', 'Q', 'A', 'T', 'A', 'N'] then
    some [qametsQatanCh]
  else if name = shevaName then some [shevaCh]
  else if name = shureqName then some [vavCh, dageshCh]
  else none

def invalidNameMsg (name : List Char) : List Char :=
  name ++ (" is not a valid value".toList)

/-- `Syllable.hasVowelName`: throw for an unrecognized name; SHUREQ tests
the cluster flags; otherwise test `text.indexOf` guarded by the
silent-sheva check. -/
def hasVowelName (s : Syllable) (name : List Char) : Except (List Char) Bool :=
  match sylNameToCharMap name with
  | none => .error (invalidNameMsg name)
  | some v =>
    if name = shureqName then .ok (s.clusters.any Cluster.isShureq)
    else
      let isShevaSilent := decide (name = shevaName) && s.clusters.any Cluster.hasVowel
      .ok (!isShevaSilent && containsSeq v s.text)

/-- The recognized vowel-name set. -/
def recognizedVowelNames : List (List Char) :=
  [['P', 'A', 'T', 'A', 'H'],
   ['H', 'A', 'T', 'A', 'F', '_', 'P', 'A', 'T', 'A', 'H'],
   ['Q', 'A', 'M', 'A', 'T', 'S'],
   ['H', 'A', 'T', 'A', 'F', '_', 'Q', 'A', 'M', 'A', 'T', 'S'],
   ['S', 'E', 'G', 'O', 'L'],
   ['H', 'A', 'T', 'A', 'F', '_', 'S', 'E', 'G', 'O', 'L'],
   ['T', 'S', 'E', 'R', 'E'],
   ['H', 'I', 'R', 'I', 'Q'],
   ['H', 'O', 'L', 'A', 'M'],
   ['Q', 'U', 'B', 'U', 'T', 'S'],
   ['Q', 'A', 'M', 'A', 'T', 'S', '_', 'Q', 'A', 'T', 'A', 'N'],
   shevaName, shureqName]

/-- Written from the claim: throw exactly for a name outside the
recognized set; SHUREQ iff some cluster is flagged shureq; SHEVA iff the
text contains U+05B0 and no cluster bears a (non-sheva) vowel; any other
recognized name iff the named vowel character occurs in the text. -/
def hasVowelNameSpec (s : Syllable) (name : List Char) : Except (List Char) Bool :=
  if name ∉ recognizedVowelNames then .error (invalidNameMsg name)
  else if name = shureqName then .ok (s.clusters.any Cluster.isShureq)
  else if name = shevaName then
    .ok (containsSeq [shevaCh] s.text && !(s.clusters.any Cluster.hasVowel))
  else .ok (containsSeq ((sylNameToCharMap name).getD []) s.text)

lemma sylNameToCharMap_none_iff (name : List Char) :
    sylNameToCharMap name = none ↔ name ∉ recognizedVowelNames := by
  constructor
  · intro h hmem
    simp only [recognizedVowelNames, List.mem_cons, List.mem_nil_iff, or_false] at hmem
    rcases hmem with h1 | h1 | h1 | h1 | h1 | h1 | h1 | h1 | h1 | h1 | h1 | h1 | h1 <;>
      rw [h1] at h <;> exact absurd h (by decide)
  · intro h
    by_cases h1 : name = ['P', 'A', 'T', 'A', 'H']
    · exact absurd (by rw [h1]; decide) h
    by_cases h2 : name = ['H', 'A', 'T', 'A', 'F', '_', 'P', 'A', 'T', 'A', 'H']
    · exact absurd (by rw [h2]; decide) h
    by_cases h3 : name = ['Q', 'A', 'M', 'A', 'T', 'S']
    · exact absurd (by rw [h3]; decide) h
    by_cases h4 : name = ['H', 'A', 'T', 'A', 'F', '_', 'Q', 'A', 'M', 'A', 'T', 'S']
    · exact absurd (by rw [h4]; decide) h
    by_cases h5 : name = ['S', 'E', 'G', 'O', 'L']
    · exact absurd (by rw [h5]; decide) h
    by_cases h6 : name = ['H', 'A', 'T', 'A', 'F', '_', 'S', 'E', 'G', 'O', 'L']
    · exact absurd (by rw [h6]; decide) h
    by_cases h7 : name = ['T', 'S', 'E', 'R', 'E']
    · exact absurd (by rw [h7]; decide) h
    by_cases h8 : name = ['H', 'I', 'R', 'I', 'Q']
    · exact absurd (by rw [h8]; decide) h
    by_cases h9 : name = ['H', 'O', 'L', 'A', 'M']
    · exact absurd (by rw [h9]; decide) h
    by_cases h10 : name = ['Q', 'U', 'B', 'U', 'T', 'S']
    · exact absurd (by rw [h10]; decide) h
    by_cases h11 : name = ['Q', 'A', 'M', 'A', 'T', 'S', '_', 'Q', 'A', 'T', 'A', 'N']
    · exact absurd (by rw [h11]; decide) h
    by_cases h12 : name = shevaName
    · exact absurd (by rw [h12]; decide) h
    by_cases h13 : name = shureqName
    · exact absurd (by rw [h13]; decide) h
    unfold sylNameToCharMap
    rw [if_neg h1, if_neg h2, if_neg h3, if_neg h4, if_neg h5, if_neg h6, if_neg h7,
      if_neg h8, if_neg h9, if_neg h10, if_neg h11, if_neg h12, if_neg h13]

/-- C8: `hasVowelName` agrees with the claim's description on every
syllable and every name string. -/
theorem hasVowelName_matches_claim (s : Syllable) (name : List Char) :
    hasVowelName s name = hasVowelNameSpec s name := by
  unfold hasVowelName hasVowelNameSpec
  cases hmap : sylNameToCharMap name with
  | none =>
    rw [if_pos ((sylNameToCharMap_none_iff name).mp hmap)]
  | some v =>
    have hmem : ¬ name ∉ recognizedVowelNames := by
      intro hn
      rw [← sylNameToCharMap_none_iff, hmap] at hn
      cases hn
    show (if name = shureqName then Except.ok (s.clusters.any Cluster.isShureq)
      else
        Except.ok (!(decide (name = shevaName) && s.clusters.any Cluster.hasVowel) &&
          containsSeq v s.text)) = _
    rw [if_neg hmem]
    by_cases hshu : name = shureqName
    · rw [if_pos hshu, if_pos hshu]
    · rw [if_neg hshu, if_neg hshu]
      by_cases hshe : name = shevaName
      · rw [if_pos hshe]
        have hv : v = [shevaCh] := by
          have h2 : sylNameToCharMap shevaName = some [shevaCh] := by decide
          rw [hshe] at hmap
          exact Option.some.inj (hmap.symm.trans h2)
        simp [hshe, hv, Bool.and_comm]
      · rw [if_neg hshe]
        simp [hshe, hmap]

/-! ## C9: the holem-waw correction pass (utils/holemWaw.ts, part_002) -/

/-- A cantillation mark (taam): the Hebrew accents U+0591-U+05AF. -/
def isTaamCh (c : Char) : Bool := 0x0591 ≤ c.toNat && c.toNat ≤ 0x05AF

/-- Modelled from the spec: `removeTaamim` (utils/removeTaamim.ts, not
among the sources) computes "a view of the word with all cantillation
marks removed, plus a position map from offsets in that view back to
offsets in the original string" (spec 4.2). -/
def removeTaamimAux : Nat → List Char → List Char × List Nat
  | _, [] => ([], [])
  | i, c :: rest =>
    let r := removeTaamimAux (i + 1) rest
    if isTaamCh c then r else (c :: r.1, i :: r.2)

def removeTaamim (w : List Char) : List Char × List Nat := removeTaamimAux 0 w

/-- The `vowels` class of holemWaw.ts line 179:
`/[\u{05B0}-\u{05BB}\u{05C7}]/u`. -/
def hwVowels (c : Char) : Bool := (shevaCh ≤ c && c ≤ 'ֻ') || c = qametsQatanCh

def prevIsVowel : Option Char → Bool
  | some p => hwVowels p
  | none => false

/-- All match start indices of the global pattern
"vav + holem not preceded by a vowel" over the taamim-stripped view,
scanning left to right and resuming after each two-character match. -/
def matchIdxsAux : Option Char → Nat → List Char → List Nat
  | prev, k, v :: h :: rest =>
    if v = vavCh ∧ h = holemCh ∧ prevIsVowel prev = false then
      k :: matchIdxsAux (some h) (k + 2) rest
    else matchIdxsAux (some v) (k + 1) (h :: rest)
  | _, _, _ => []

/-- `word.replace(re, c)` with a non-global single-character pattern:
replace the first occurrence. -/
def replaceFirst : List Char → Char → Char → List Char
  | [], _, _ => []
  | c :: r, a, b => if c = a then b :: r else c :: replaceFirst r a b

/-- `.replace(holemRegx, "")` with a non-global pattern: remove the first
holem. -/
def removeFirstHolem : List Char → List Char
  | [] => []
  | c :: r => if c = holemCh then r else c :: removeFirstHolem r

/-- JS `word.substring(e)` where `e` may be NaN (modelled as `none`): NaN
is coerced to 0, and an index past the end yields the empty string. -/
def subFrom (w : List Char) : Option Nat → List Char
  | none => w
  | some e => w.drop e

/-- JS truthiness of `s.trim()`. -/
def trimTruthy (l : List Char) : Bool := l.any (fun c => !c.isWhitespace)

/-- One splice of the loop at holemWaw.ts lines 202-209 for the match at
stripped index `k`: `start = charPos[match.index]`,
`end = charPos[match[0].length] + start` (i.e. `charPos[2] + start`, NaN
when `charPos` has fewer than three entries), then
`word.substring(0, start) + "ֹו" + (trim-nonempty ?
word.substring(end) : word.substring(end - 1)).replace(holem, "")`. -/
def spliceMatch (charPos : List Nat) (w : List Char) (k : Nat) : List Char :=
  let start := charPos.getD k 0
  let endO : Option Nat := (charPos.get? 2).map (fun v => v + start)
  let tailA := subFrom w endO
  let tailB := subFrom w (endO.map (fun e => e - 1))
  w.take start ++ [holemCh, vavCh] ++
    removeFirstHolem (if trimTruthy tailA = true then tailA else tailB)

/-- The holem-haser normalization at holemWaw.ts lines 183-185. -/
def haserStep (options : SylOpts) (word : List Char) : List Char :=
  if options.holemHaser = HolemHaserOpt.remove ∧ containsCh word holemHaserCh = true then
    replaceFirst word holemHaserCh holemCh
  else word

/-- `holemWaw` (utils/holemWaw.ts lines 174-212). -/
def holemWaw (options : SylOpts) (word0 : List Char) : List Char :=
  let word := haserStep options word0
  if !(containsCh word vavCh) || !(containsCh word holemCh) ||
      !(containsSeq [vavCh, holemCh] word) then word
  else
    let nt := removeTaamim word
    (matchIdxsAux none 0 nt.1).foldl (spliceMatch nt.2) word

/-- Concrete words for the C9 counterexample: bet, taam, bet, taam, mem,
vav, holem, taam, tav — a candidate with taamim before and after it — and
a lone holem haser. -/
def c9Word1 : List Char := ['ב', '֨', 'ב', '֨', 'מ', vavCh, holemCh, '֨', 'ת']

def c9Word2 : List Char := [holemHaserCh]

/-- C9 counterexample: (a) on `c9Word1` the pass loses a cantillation mark
(the splice's `end = charPos[2] + start` overshoots past taamim that occur
early in the word), so the output's cantillation content differs from the
input's; (b) with `holemHaser: "remove"`, a word containing a holem haser
but no vav+holem candidate at all is returned changed. -/
theorem holemWaw_counterexample :
    ((holemWaw {} c9Word1).filter isTaamCh ≠ c9Word1.filter isTaamCh) ∧
    (holemWaw { holemHaser := HolemHaserOpt.remove } c9Word2 ≠ c9Word2 ∧
      containsSeq [vavCh, holemCh] c9Word2 = false) :=
  ⟨by decide, by decide, by decide⟩

/-- C9 amended: whenever the taamim-stripped view of the haser-normalized
word contains no candidate (vav + holem not preceded by a vowel), the pass
returns the haser-normalized word unchanged — in particular the word
itself when `holemHaser` is not "remove" or no holem haser occurs. -/
theorem holemWaw_no_candidate (options : SylOpts) (w : List Char)
    (h : matchIdxsAux none 0 (removeTaamim (haserStep options w)).1 = []) :
    holemWaw options w = haserStep options w := by
  show (if !(containsCh (haserStep options w) vavCh) ||
      !(containsCh (haserStep options w) holemCh) ||
      !(containsSeq [vavCh, holemCh] (haserStep options w)) then haserStep options w
    else
      (matchIdxsAux none 0 (removeTaamim (haserStep options w)).1).foldl
        (spliceMatch (removeTaamim (haserStep options w)).2) (haserStep options w)) =
    haserStep options w
  by_cases hg : (!(containsCh (haserStep options w) vavCh) ||
      !(containsCh (haserStep options w) holemCh) ||
      !(containsSeq [vavCh, holemCh] (haserStep options w))) = true
  · rw [if_pos hg]
  · rw [if_neg hg, h]
    rfl

/-- Witness for the amended C9 theorem: a word with no vav at all. -/
theorem holemWaw_no_candidate_witness :
    holemWaw {} ['ב'] = haserStep {} ['ב'] :=
  holemWaw_no_candidate {} ['ב'] (by decide)

/-! ## C10: the round-trip properties -/

def isSpaceCh (c : Char) : Bool := c.isWhitespace

/-- Modelled from the spec and the comment at text.ts:80: the corrected
text is split at spaces and maqqef (`splitGroup`, in
utils/regularExpressions.ts which is not among the sources), each space
kept as its own entry and a maqqef ending its word's entry. -/
def splitGroupsAux (cur : List Char) : List Char → List (List Char)
  | [] => [cur]
  | c :: rest =>
    if isSpaceCh c then cur :: [c] :: splitGroupsAux [] rest
    else if c = maqqefCh then (cur ++ [c]) :: splitGroupsAux [] rest
    else splitGroupsAux (cur ++ [c]) rest

def splitGroups (s : List Char) : List (List Char) := splitGroupsAux [] s

/-- Modelled from the spec: a Word ("ordered sequence of Syllables plus
trailing whitespace/punctuation string"; word.ts is not among the sources)
built from one split group: its text is the group less its trailing
whitespace, and `whiteSpaceAfter` is that trailing whitespace. -/
def wordWhiteSpaceAfter (g : List Char) : List Char :=
  (g.reverse.takeWhile isSpaceCh).reverse

def wordTextOf (g : List Char) : List Char := (g.reverse.dropWhile isSpaceCh).reverse

/-- `Text.text` (text.ts:90-92) as a function of the sanitized string:
the fold of word text + `whiteSpaceAfter` over the nonempty split groups
(text.ts:97-103 builds the words from exactly those groups). -/
def textOfText (sanitized : List Char) : List Char :=
  ((splitGroups sanitized).filter (fun g => !g.isEmpty)).foldl
    (fun a g => a ++ (wordTextOf g ++ wordWhiteSpaceAfter g)) []

lemma splitGroupsAux_flatten : ∀ (l : List Char) (cur : List Char),
    (splitGroupsAux cur l).flatten = cur ++ l := by
  intro l
  induction l with
  | nil => intro cur; simp [splitGroupsAux]
  | cons c rest ih =>
    intro cur
    by_cases hs : isSpaceCh c = true
    · simp [splitGroupsAux, hs, ih]
    · by_cases hm : c = maqqefCh
      · have hsm : isSpaceCh maqqefCh = false := by decide
        simp [splitGroupsAux, hm, hsm, ih]
      · simp [splitGroupsAux, hs, hm, ih]

lemma wordText_append_ws (g : List Char) :
    wordTextOf g ++ wordWhiteSpaceAfter g = g := by
  unfold wordTextOf wordWhiteSpaceAfter
  rw [← List.reverse_append, List.takeWhile_append_dropWhile, List.reverse_reverse]

lemma foldl_append_eq {α : Type} (f : α → List Char) : ∀ (l : List α) (init : List Char),
    l.foldl (fun a x => a ++ f x) init = init ++ (l.map f).flatten := by
  intro l
  induction l with
  | nil => intro init; simp
  | cons x l ih => intro init; simp [ih]

lemma flatten_map_wordText : ∀ (gs : List (List Char)),
    ((gs.map (fun g => wordTextOf g ++ wordWhiteSpaceAfter g)).flatten) = gs.flatten := by
  intro gs
  induction gs with
  | nil => rfl
  | cons g gs ih => simp [ih, wordText_append_ws g]

lemma flatten_filter_nonempty : ∀ (gs : List (List Char)),
    ((gs.filter (fun g => !g.isEmpty)).flatten) = gs.flatten := by
  intro gs
  induction gs with
  | nil => rfl
  | cons g gs ih =>
    cases g with
    | nil => simp [List.filter_cons, ih]
    | cons a as => simp [List.filter_cons, ih]

/-- C10: concatenating, over the Words of a Text (the nonempty split
groups of the sanitized string), each Word's text followed by its trailing
whitespace reproduces the sanitized string; and every Syllable's text is
the concatenation of its Clusters' texts in order. -/
theorem text_roundtrip :
    (∀ sanitized : List Char, textOfText sanitized = sanitized) ∧
    (∀ s : Syllable, Syllable.text s = (s.clusters.map Cluster.text).flatten) := by
  constructor
  · intro sanitized
    unfold textOfText
    rw [foldl_append_eq (fun g => wordTextOf g ++ wordWhiteSpaceAfter g),
      List.nil_append, flatten_map_wordText, flatten_filter_nonempty]
    exact splitGroupsAux_flatten sanitized []
  · intro s
    unfold Syllable.text
    rw [foldl_append_eq Cluster.text s.clusters [], List.nil_append]

end Havarot

